import Mathlib

/-!
Verification of the tiling / stitching / multi-pass upscale core of Face2XCli
(src/utils.js: upscaleFrame, processAlphaChannel, multiUpscale, runSuperRes)
and of its batch driver (src/index.js: processImage, processBulkImages),
shallowly embedded in Lean.

Modelling conventions:
* Images are 8-bit RGBA rasters held in ndarrays of shape [w, h, 4]
  (imageToNdarray, utils.js line 10); we model one as a width, a height and a
  total pixel function pix x y c.  Every pixel operation of the embedded code
  only copies byte values, so no modular arithmetic is needed.
* runSuperRes (utils.js lines 53-65) wraps the ONNX session call in try/catch
  and returns undefined on failure; we model the whole inference boundary as a
  function InferOp : Img -> Option InferResult.  A returned tensor is modelled
  by its dims [d0, d1, d2] together with a flat buffer; ndarray reads use
  row-major strides [d1*d2, d2, 1], and a read past the end of a Uint8Array
  yields undefined, which a Uint8Array store converts to byte 0, hence
  InferResult.atIdx clamps out-of-range reads to 0.
* The zero-filled output canvas (new Uint8Array, utils.js line 80) is the
  constant-0 function.  For each tile the code first runs the ops.assign copy
  from the cropped inference result (line 103) and then processAlphaChannel
  over the same output slice (lines 106-109 and 116-129); these are the two
  successive functional canvas updates stitchStep and alphaPass.  Note that
  ndarray's pick treats a non-numeric argument (here the array [0,1,2]) as
  "keep this axis", so the assign of line 103 copies all four channels; the
  alpha pass then overwrites channel 3 on the whole output slice.
* upscaleFrame's doubly nested chunk loop (i outer over rows, j inner over
  columns, lines 81-111) is the row-major tile list tiles, folded with Option
  to model that a failed inference makes line 98 throw (chunkData is
  undefined), aborting the frame with no usable output.
* In JS, Math.max(0, x - PAD_SIZE) on a nonnegative integer x equals Lean's
  truncated Nat subtraction x - PAD_SIZE, which padStart uses.
-/

namespace Face2X

def CHUNK_SIZE : Nat := 1024

def PAD_SIZE : Nat := 32

/-- An RGBA image: ndarray of shape [w, h, 4], entry (x, y, c) is pix x y c. -/
structure Img where
  w : Nat
  h : Nat
  pix : Nat → Nat → Nat → Nat

/-- An inference output tensor: dims [d0, d1, d2] plus its flat data buffer.
A compliant result for a (w, h, 4) chunk has dims [2w, 2h, 4]. -/
structure InferResult where
  d0 : Nat
  d1 : Nat
  d2 : Nat
  data : Nat → Nat

def InferResult.size (r : InferResult) : Nat := r.d0 * r.d1 * r.d2

/-- Flat buffer read; past-the-end Uint8Array reads come back as byte 0. -/
def InferResult.atIdx (r : InferResult) (i : Nat) : Nat :=
  if i < r.size then r.data i else 0

/-- ndarray get with row-major strides [d1*d2, d2, 1] for shape [d0, d1, d2]. -/
def InferResult.get (r : InferResult) (x y c : Nat) : Nat :=
  r.atIdx (x * (r.d1 * r.d2) + y * r.d2 + c)

/-- The inference boundary (runSuperRes): a chunk in, a tensor or failure out. -/
def InferOp : Type := Img → Option InferResult

/-- nChunksW / nChunksH (utils.js lines 75-76): Math.ceil(dim / CHUNK_SIZE). -/
def nChunksDim (dim : Nat) : Nat := (dim + (CHUNK_SIZE - 1)) / CHUNK_SIZE

/-- chunkW / chunkH (utils.js lines 77-78): Math.floor(dim / nChunks). -/
def chunkDim (dim : Nat) : Nat := dim / nChunksDim dim

/-- xStart / yStart (lines 86, 89): Math.max(0, pos - PAD_SIZE). -/
def padStart (pos : Nat) : Nat := pos - PAD_SIZE

/-- inW / inH (lines 87, 90): clip the padded extent to the image edge. -/
def inLenDim (dim pos : Nat) : Nat :=
  if dim < padStart pos + chunkDim dim + PAD_SIZE * 2 then dim - padStart pos
  else chunkDim dim + PAD_SIZE * 2

/-- outW / outH (lines 88, 91): 2 * (Math.min(dim, pos + chunk) - pos). -/
def outLenDim (dim pos : Nat) : Nat := 2 * (min dim (pos + chunkDim dim) - pos)

/-- A tile's base origin (x, y) = (j * chunkW, i * chunkH) (lines 83-84). -/
abbrev Tile := Nat × Nat

/-- The row-major tile grid of one pass (loops of lines 81-82). -/
def tiles (W H : Nat) : List Tile :=
  (List.range (nChunksDim H)).flatMap fun i =>
    (List.range (nChunksDim W)).map fun j => (j * chunkDim W, i * chunkDim H)

/-- The flat bytes of the contiguous chunk copy subArr (lines 93-95), in the
row-major layout of shape (iw, ih, 4): offset of (u, v, c) is u*ih*4 + v*4 + c. -/
def chunkData (src : Img) (xs ys iw ih : Nat) : List Nat :=
  (List.range iw).flatMap fun u =>
    (List.range ih).flatMap fun v =>
      (List.range 4).map fun c => src.pix (xs + u) (ys + v) c

/-- subArr as an image: after ops.assign(subArr, inSlice) entry (u, v, c) of
the copy holds the source value at (xs + u, ys + v, c). -/
def extractChunk (src : Img) (xs ys iw ih : Nat) : Img :=
  ⟨iw, ih, fun u v c => src.pix (xs + u) (ys + v) c⟩

/-- The pass-scoped output canvas as a total function (x, y, c) -> byte. -/
def Canvas : Type := Nat → Nat → Nat → Nat

/-- Line 103: ops.assign(outSlice.pick(null,null,[0,1,2]),
chunkSlice.pick(null,null,[0,1,2])).  chunkSlice crops the result at
(2*dx, 2*dy) with extent (ow, oh) (line 99) and outSlice sits at (2x, 2y)
(line 100).  Since pick keeps an axis whose index is not a number, the array
argument [0,1,2] selects nothing and all four channels are copied. -/
def stitchStep (x y dx dy ow oh : Nat) (r : InferResult) (cv : Canvas) : Canvas :=
  fun px py c =>
    if 2 * x ≤ px ∧ px < 2 * x + ow ∧ 2 * y ≤ py ∧ py < 2 * y + oh ∧ c < 4 then
      r.get (2 * dx + (px - 2 * x)) (2 * dy + (py - 2 * y)) c
    else cv px py c

/-- processAlphaChannel (lines 116-129) applied to the views of lines 106-109:
input = inSlice.lo(dx, dy).hi(ow/2, oh/2, 4) (a view of the source from
absolute origin (xs + dx, ys + dy)), output = outArr.lo(2x, 2y).hi(ow, oh, 4).
For 0 <= lx < ow, 0 <= ly < oh it sets output(lx, ly, 3) :=
input(lx/2, ly/2, 3). -/
def alphaPass (src : Img) (xs ys dx dy x y ow oh : Nat) (cv : Canvas) : Canvas :=
  fun px py c =>
    if 2 * x ≤ px ∧ px < 2 * x + ow ∧ 2 * y ≤ py ∧ py < 2 * y + oh ∧ c = 3 then
      src.pix (xs + (dx + (px - 2 * x) / 2)) (ys + (dy + (py - 2 * y) / 2)) 3
    else cv px py c

/-- The body of the chunk loop (lines 83-109) for one tile. -/
def applyTile (infer : InferOp) (src : Img) (cv : Canvas) (t : Tile) : Option Canvas :=
  let xs := padStart t.1
  let ys := padStart t.2
  let iw := inLenDim src.w t.1
  let ih := inLenDim src.h t.2
  let ow := outLenDim src.w t.1
  let oh := outLenDim src.h t.2
  match infer (extractChunk src xs ys iw ih) with
  | none => none
  | some r =>
      some (alphaPass src xs ys (t.1 - xs) (t.2 - ys) t.1 t.2 ow oh
        (stitchStep t.1 t.2 (t.1 - xs) (t.2 - ys) ow oh r cv))

/-- upscaleFrame (utils.js lines 67-114): one full doubling pass. -/
def upscaleFrame (infer : InferOp) (src : Img) : Option Img :=
  ((tiles src.w src.h).foldlM (applyTile infer src) (fun _ _ _ => (0 : Nat))).map
    fun cv => ⟨2 * src.w, 2 * src.h, cv⟩

/-- multiUpscale (utils.js lines 131-140): upscaleFactor sequential passes. -/
def multiUpscale (infer : InferOp) (img : Img) : Nat → Option Img
  | 0 => some img
  | n + 1 => (multiUpscale infer img n).bind (upscaleFrame infer)

/-- processImage (index.js lines 16-45): decode, multiUpscale, encode, inside
one try/catch; a some result is a written output file, none means the catch
ran, no file was produced and false was returned. -/
def processImage (infer : InferOp) (img : Img) (factor : Nat) : Option Img :=
  multiUpscale infer img factor

/-- processBulkImages' per-file loop (index.js lines 70-77): successCount
together with the per-image outcomes, in order. -/
def processBulkImages (infer : InferOp) (imgs : List Img) (factor : Nat) :
    Nat × List (Option Img) :=
  imgs.foldl
    (fun acc im =>
      let res := processImage infer im factor
      (acc.1 + (if res.isSome then 1 else 0), acc.2 ++ [res]))
    (0, [])

/-- Membership of an output column/row in one tile's outputRegion extent. -/
def inReg (dim pos p : Nat) : Prop :=
  2 * pos ≤ p ∧ p < 2 * pos + outLenDim dim pos

/-- Membership of an output pixel in one tile's outputRegion. -/
def inTile (W H : Nat) (t : Tile) (px py : Nat) : Prop :=
  inReg W t.1 px ∧ inReg H t.2 py

/-- An output pixel is covered when some tile of the grid writes it. -/
def covered (W H px py : Nat) : Prop :=
  ∃ t ∈ tiles W H, inTile W H t px py

instance (dim pos p : Nat) : Decidable (inReg dim pos p) := by
  unfold inReg; exact inferInstance

instance (W H : Nat) (t : Tile) (px py : Nat) : Decidable (inTile W H t px py) := by
  unfold inTile; exact inferInstance

instance (W H px py : Nat) : Decidable (covered W H px py) := by
  unfold covered; exact inferInstance

/-- A tile of the grid, identified by its indices. -/
def validTile (W H : Nat) (t : Tile) : Prop :=
  ∃ j < nChunksDim W, ∃ i < nChunksDim H, t = (j * chunkDim W, i * chunkDim H)

/-- Identity-doubling inference stub: for a (w, h, 4) chunk it returns a
compliant [2w, 2h, 4] tensor whose flat row-major buffer replicates every
chunk pixel into a 2x2 block. -/
def identResult (ch : Img) : InferResult :=
  ⟨2 * ch.w, 2 * ch.h, 4, fun i =>
    ch.pix (i / (2 * ch.h * 4) / 2) (i % (2 * ch.h * 4) / 4 / 2) (i % 4)⟩

def identInfer : InferOp := fun ch => some (identResult ch)

/-! ### Scheduler arithmetic -/

lemma nChunksDim_pos {dim : Nat} (hd : 1 ≤ dim) : 0 < nChunksDim dim := by
  have : (0:Nat) < 1024 := by norm_num
  simp only [nChunksDim, CHUNK_SIZE]
  exact Nat.div_pos (by omega) this

lemma nChunksDim_le {dim : Nat} (hd : 1 ≤ dim) : nChunksDim dim ≤ dim := by
  have h : (dim + (1024 - 1)) / 1024 < dim + 1 := by
    apply (Nat.div_lt_iff_lt_mul (by norm_num : (0:Nat) < 1024)).2
    omega
  simp only [nChunksDim, CHUNK_SIZE]
  omega

lemma chunkDim_pos {dim : Nat} (hd : 1 ≤ dim) : 0 < chunkDim dim := by
  unfold chunkDim
  exact Nat.div_pos (nChunksDim_le hd) (nChunksDim_pos hd)

/-- The right end of any tile's unpadded extent stays at or below the image
edge: (j+1)*chunk <= nChunks*chunk <= dim, so min(dim, pos + chunk) never
clips, and a remainder dim - nChunks*chunk is never absorbed by any tile. -/
lemma tile_end_le {dim j : Nat} (hj : j < nChunksDim dim) :
    j * chunkDim dim + chunkDim dim ≤ dim := by
  have h1 : (j + 1) * chunkDim dim ≤ nChunksDim dim * chunkDim dim :=
    Nat.mul_le_mul_right _ hj
  have h2 : nChunksDim dim * chunkDim dim ≤ dim := by
    unfold chunkDim
    rw [Nat.mul_comm]
    exact Nat.div_mul_le_self dim (nChunksDim dim)
  calc j * chunkDim dim + chunkDim dim = (j + 1) * chunkDim dim := by ring
    _ ≤ nChunksDim dim * chunkDim dim := h1
    _ ≤ dim := h2

lemma outLenDim_eq {dim j : Nat} (hj : j < nChunksDim dim) :
    outLenDim dim (j * chunkDim dim) = 2 * chunkDim dim := by
  unfold outLenDim
  rw [Nat.min_eq_right (tile_end_le hj)]
  omega

lemma padStart_le (pos : Nat) : padStart pos ≤ pos := Nat.sub_le _ _

lemma padStart_gap_le (pos : Nat) : pos - padStart pos ≤ PAD_SIZE := by
  simp only [padStart, PAD_SIZE]; omega

lemma inLen_le {dim j : Nat} (hj : j < nChunksDim dim) :
    padStart (j * chunkDim dim) + inLenDim dim (j * chunkDim dim) ≤ dim := by
  have h1 := tile_end_le hj
  have h2 := padStart_le (j * chunkDim dim)
  unfold inLenDim
  split <;> omega

lemma chunk_fits {dim j : Nat} (hj : j < nChunksDim dim) :
    (j * chunkDim dim - padStart (j * chunkDim dim)) + chunkDim dim ≤
      inLenDim dim (j * chunkDim dim) := by
  have h1 := tile_end_le hj
  have h2 := padStart_gap_le (j * chunkDim dim)
  have h3 := padStart_le (j * chunkDim dim)
  unfold inLenDim
  simp only [PAD_SIZE] at h2 ⊢
  split <;> omega

/-! ### Coverage of the grid -/

lemma inReg_of_div {dim p : Nat} (hd : 1 ≤ dim)
    (hp : p < 2 * (nChunksDim dim * chunkDim dim)) :
    p / (2 * chunkDim dim) < nChunksDim dim ∧
      inReg dim ((p / (2 * chunkDim dim)) * chunkDim dim) p := by
  have hc : 0 < chunkDim dim := chunkDim_pos hd
  have h2c : 0 < 2 * chunkDim dim := by omega
  have hj : p / (2 * chunkDim dim) < nChunksDim dim := by
    apply (Nat.div_lt_iff_lt_mul h2c).2
    calc p < 2 * (nChunksDim dim * chunkDim dim) := hp
      _ = nChunksDim dim * (2 * chunkDim dim) := by ring
  have hdm := Nat.div_add_mod p (2 * chunkDim dim)
  have hmlt : p % (2 * chunkDim dim) < 2 * chunkDim dim := Nat.mod_lt _ h2c
  refine ⟨hj, ?_, ?_⟩
  · calc 2 * (p / (2 * chunkDim dim) * chunkDim dim)
        = 2 * chunkDim dim * (p / (2 * chunkDim dim)) := by ring
      _ ≤ 2 * chunkDim dim * (p / (2 * chunkDim dim)) + p % (2 * chunkDim dim) :=
          Nat.le_add_right _ _
      _ = p := hdm
  · rw [outLenDim_eq hj]
    calc p = 2 * chunkDim dim * (p / (2 * chunkDim dim)) + p % (2 * chunkDim dim) :=
          hdm.symm
      _ < 2 * chunkDim dim * (p / (2 * chunkDim dim)) + 2 * chunkDim dim :=
          Nat.add_lt_add_left hmlt _
      _ = 2 * (p / (2 * chunkDim dim) * chunkDim dim) + 2 * chunkDim dim := by ring

lemma mem_tiles_iff {W H : Nat} {t : Tile} :
    t ∈ tiles W H ↔ validTile W H t := by
  unfold tiles validTile
  constructor
  · intro h
    obtain ⟨i, hi, h2⟩ := List.mem_flatMap.1 h
    obtain ⟨j, hj, h3⟩ := List.mem_map.1 h2
    exact ⟨j, List.mem_range.1 hj, i, List.mem_range.1 hi, h3.symm⟩
  · rintro ⟨j, hj, i, hi, rfl⟩
    exact List.mem_flatMap.2 ⟨i, List.mem_range.2 hi,
      List.mem_map.2 ⟨j, List.mem_range.2 hj, rfl⟩⟩

lemma covered_of_lt {W H px py : Nat} (hW : 1 ≤ W) (hH : 1 ≤ H)
    (hx : px < 2 * (nChunksDim W * chunkDim W))
    (hy : py < 2 * (nChunksDim H * chunkDim H)) :
    covered W H px py := by
  obtain ⟨hj, hrx⟩ := inReg_of_div hW hx
  obtain ⟨hi, hry⟩ := inReg_of_div hH hy
  exact ⟨(px / (2 * chunkDim W) * chunkDim W, py / (2 * chunkDim H) * chunkDim H),
    mem_tiles_iff.2 ⟨_, hj, _, hi, rfl⟩, hrx, hry⟩

/-! ### Pointwise behaviour of the two per-tile canvas updates -/

lemma stitch_in {x y ow oh px py c : Nat} (dx dy : Nat) (r : InferResult) (cv : Canvas)
    (h1 : 2 * x ≤ px) (h2 : px < 2 * x + ow) (h3 : 2 * y ≤ py) (h4 : py < 2 * y + oh)
    (hc : c < 4) :
    stitchStep x y dx dy ow oh r cv px py c =
      r.get (2 * dx + (px - 2 * x)) (2 * dy + (py - 2 * y)) c := by
  unfold stitchStep
  rw [if_pos ⟨h1, h2, h3, h4, hc⟩]

lemma stitch_out {x y ow oh px py c : Nat} (dx dy : Nat) (r : InferResult) (cv : Canvas)
    (h : ¬(2 * x ≤ px ∧ px < 2 * x + ow ∧ 2 * y ≤ py ∧ py < 2 * y + oh)) :
    stitchStep x y dx dy ow oh r cv px py c = cv px py c := by
  unfold stitchStep
  rw [if_neg]
  tauto

lemma alpha_in {x y ow oh px py : Nat} (src : Img) (xs ys dx dy : Nat) (cv : Canvas)
    (h1 : 2 * x ≤ px) (h2 : px < 2 * x + ow) (h3 : 2 * y ≤ py) (h4 : py < 2 * y + oh) :
    alphaPass src xs ys dx dy x y ow oh cv px py 3 =
      src.pix (xs + (dx + (px - 2 * x) / 2)) (ys + (dy + (py - 2 * y) / 2)) 3 := by
  unfold alphaPass
  rw [if_pos ⟨h1, h2, h3, h4, rfl⟩]

lemma alpha_out {x y ow oh px py c : Nat} (src : Img) (xs ys dx dy : Nat) (cv : Canvas)
    (h : ¬(2 * x ≤ px ∧ px < 2 * x + ow ∧ 2 * y ≤ py ∧ py < 2 * y + oh)) :
    alphaPass src xs ys dx dy x y ow oh cv px py c = cv px py c := by
  unfold alphaPass
  rw [if_neg]
  tauto

lemma alpha_ne3 {x y ow oh px py c : Nat} (src : Img) (xs ys dx dy : Nat) (cv : Canvas)
    (hc : c ≠ 3) :
    alphaPass src xs ys dx dy x y ow oh cv px py c = cv px py c := by
  unfold alphaPass
  rw [if_neg]
  tauto

/-- When the tile's padded origin and inner offset come from padStart, the
alpha pass writes exactly the source alpha of the half-resolution pixel. -/
lemma alpha_value (src : Img) {x y ow oh px py : Nat} (cv : Canvas)
    (h1 : 2 * x ≤ px) (h2 : px < 2 * x + ow) (h3 : 2 * y ≤ py) (h4 : py < 2 * y + oh) :
    alphaPass src (padStart x) (padStart y) (x - padStart x) (y - padStart y)
        x y ow oh cv px py 3 = src.pix (px / 2) (py / 2) 3 := by
  rw [alpha_in src _ _ _ _ cv h1 h2 h3 h4]
  have ex : padStart x + ((x - padStart x) + (px - 2 * x) / 2) = px / 2 := by
    simp only [padStart, PAD_SIZE]
    omega
  have ey : padStart y + ((y - padStart y) + (py - 2 * y) / 2) = py / 2 := by
    simp only [padStart, PAD_SIZE]
    omega
  rw [ex, ey]

/-! ### The identity-doubling stub decodes to pixel replication -/

lemma identResult_get (ch : Img) {u v c : Nat}
    (hu : u < 2 * ch.w) (hv : v < 2 * ch.h) (hc : c < 4) :
    (identResult ch).get u v c = ch.pix (u / 2) (v / 2) c := by
  have hb : 0 < 2 * ch.h * 4 := by omega
  have hvc : v * 4 + c < 2 * ch.h * 4 := by omega
  have hi : u * (2 * ch.h * 4) + v * 4 + c < 2 * ch.w * (2 * ch.h) * 4 := by
    have h5 : (u + 1) * (2 * ch.h * 4) = u * (2 * ch.h * 4) + 2 * ch.h * 4 := by ring
    have h6 : (u + 1) * (2 * ch.h * 4) ≤ 2 * ch.w * (2 * ch.h * 4) :=
      Nat.mul_le_mul_right _ (by omega)
    have h7 : 2 * ch.w * (2 * ch.h) * 4 = 2 * ch.w * (2 * ch.h * 4) := by ring
    omega
  have h1 : (u * (2 * ch.h * 4) + v * 4 + c) / (2 * ch.h * 4) = u := by
    rw [show u * (2 * ch.h * 4) + v * 4 + c = (v * 4 + c) + (2 * ch.h * 4) * u by ring]
    rw [Nat.add_mul_div_left _ _ hb, Nat.div_eq_of_lt hvc, Nat.zero_add]
  have h2 : (u * (2 * ch.h * 4) + v * 4 + c) % (2 * ch.h * 4) / 4 = v := by
    rw [show u * (2 * ch.h * 4) + v * 4 + c = (v * 4 + c) + (2 * ch.h * 4) * u by ring]
    rw [Nat.add_mul_mod_self_left, Nat.mod_eq_of_lt hvc]
    rw [show v * 4 + c = c + 4 * v by ring]
    rw [Nat.add_mul_div_left _ _ (by norm_num : (0:Nat) < 4), Nat.div_eq_of_lt hc,
      Nat.zero_add]
  have h3 : (u * (2 * ch.h * 4) + v * 4 + c) % 4 = c := by
    rw [show u * (2 * ch.h * 4) + v * 4 + c = c + 4 * (2 * ch.h * u + v) by ring]
    rw [Nat.add_mul_mod_self_left, Nat.mod_eq_of_lt hc]
  unfold identResult InferResult.get InferResult.atIdx InferResult.size
  simp only
  rw [if_pos hi, h1, h2, h3]

/-! ### Reduction of one tile body -/

lemma applyTile_some (infer : InferOp) (src : Img) (cv : Canvas) (t : Tile)
    (r : InferResult)
    (h : infer (extractChunk src (padStart t.1) (padStart t.2)
        (inLenDim src.w t.1) (inLenDim src.h t.2)) = some r) :
    applyTile infer src cv t =
      some (alphaPass src (padStart t.1) (padStart t.2) (t.1 - padStart t.1)
        (t.2 - padStart t.2) t.1 t.2 (outLenDim src.w t.1) (outLenDim src.h t.2)
        (stitchStep t.1 t.2 (t.1 - padStart t.1) (t.2 - padStart t.2)
          (outLenDim src.w t.1) (outLenDim src.h t.2) r cv)) := by
  unfold applyTile
  simp only [h]

lemma applyTile_none (infer : InferOp) (src : Img) (cv : Canvas) (t : Tile)
    (h : infer (extractChunk src (padStart t.1) (padStart t.2)
        (inLenDim src.w t.1) (inLenDim src.h t.2)) = none) :
    applyTile infer src cv t = none := by
  unfold applyTile
  simp only [h]

/-- On any tile whose crop stays inside the doubled chunk, stitching the
identity-doubling result writes exact pixel replication of the source. -/
lemma stitch_ident_value (src : Img) {x y iw ih ow oh px py c : Nat} (cv : Canvas)
    (hbx : 2 * (x - padStart x) + ow ≤ 2 * iw)
    (hby : 2 * (y - padStart y) + oh ≤ 2 * ih)
    (h1 : 2 * x ≤ px) (h2 : px < 2 * x + ow) (h3 : 2 * y ≤ py) (h4 : py < 2 * y + oh)
    (hc : c < 4) :
    stitchStep x y (x - padStart x) (y - padStart y) ow oh
        (identResult (extractChunk src (padStart x) (padStart y) iw ih)) cv px py c
      = src.pix (px / 2) (py / 2) c := by
  rw [stitch_in _ _ _ cv h1 h2 h3 h4 hc]
  have hu : 2 * (x - padStart x) + (px - 2 * x) <
      2 * (extractChunk src (padStart x) (padStart y) iw ih).w := by
    simp only [extractChunk]
    omega
  have hv : 2 * (y - padStart y) + (py - 2 * y) <
      2 * (extractChunk src (padStart x) (padStart y) iw ih).h := by
    simp only [extractChunk]
    omega
  rw [identResult_get _ hu hv hc]
  simp only [extractChunk]
  have ex : padStart x + (2 * (x - padStart x) + (px - 2 * x)) / 2 = px / 2 := by
    simp only [padStart, PAD_SIZE]
    omega
  have ey : padStart y + (2 * (y - padStart y) + (py - 2 * y)) / 2 = py / 2 := by
    simp only [padStart, PAD_SIZE]
    omega
  rw [ex, ey]
/-! ### Folding the tile loop -/

/-- Generic loop invariant for the chunk loop: if every tile body succeeds,
writes the reference value good on its own outputRegion for the channels
selected by S, and leaves everything else untouched, then the whole loop
succeeds, equals good on the union of the outputRegions (for S-channels) and
leaves uncovered pixels at their initial value. -/
lemma foldTiles_writes (infer : InferOp) (src : Img) (S : Nat → Prop)
    (good : Nat → Nat → Nat → Nat)
    (hstep : ∀ (cv : Canvas) (t : Tile), validTile src.w src.h t →
      ∃ cv2, applyTile infer src cv t = some cv2 ∧
        (∀ px py c, S c → inTile src.w src.h t px py → cv2 px py c = good px py c) ∧
        (∀ px py c, ¬ inTile src.w src.h t px py → cv2 px py c = cv px py c)) :
    ∀ (ts : List Tile), (∀ t ∈ ts, validTile src.w src.h t) → ∀ cv0 : Canvas,
      ∃ cv, ts.foldlM (applyTile infer src) cv0 = some cv ∧
        (∀ px py c, S c → (∃ t ∈ ts, inTile src.w src.h t px py) →
          cv px py c = good px py c) ∧
        (∀ px py c, (¬ ∃ t ∈ ts, inTile src.w src.h t px py) →
          cv px py c = cv0 px py c) := by
  intro ts
  induction ts with
  | nil =>
      intro _ cv0
      refine ⟨cv0, rfl, ?_, ?_⟩
      · intro px py c _ h
        simp at h
      · intro px py c _
        rfl
  | cons t ts ih =>
      intro hval cv0
      obtain ⟨cv1, h1, hin, hout⟩ := hstep cv0 t (hval t (List.mem_cons_self t ts))
      obtain ⟨cv, h2, hcov, hrest⟩ :=
        ih (fun u hu => hval u (List.mem_cons_of_mem t hu)) cv1
      refine ⟨cv, ?_, ?_, ?_⟩
      · rw [List.foldlM_cons, h1]
        simpa using h2
      · intro px py c hS hex
        by_cases hts : ∃ u ∈ ts, inTile src.w src.h u px py
        · exact hcov px py c hS hts
        · have hT : inTile src.w src.h t px py := by
            obtain ⟨u, hu, hiu⟩ := hex
            rcases List.mem_cons.1 hu with h | h
            · exact h ▸ hiu
            · exact absurd ⟨u, h, hiu⟩ hts
          rw [hrest px py c hts]
          exact hin px py c hS hT
      · intro px py c hex
        have hts : ¬ ∃ u ∈ ts, inTile src.w src.h u px py := by
          intro hex2
          obtain ⟨u, hu, hiu⟩ := hex2
          exact hex ⟨u, List.mem_cons_of_mem t hu, hiu⟩
        have hT : ¬ inTile src.w src.h t px py := fun hT =>
          hex ⟨t, List.mem_cons_self t ts, hT⟩
        rw [hrest px py c hts]
        exact hout px py c hT

/-- One tile body under the identity-doubling stub: succeeds, writes exact
replication on all four channels of its outputRegion, leaves the rest. -/
lemma applyTile_ident_good (src : Img) (cv : Canvas) (t : Tile)
    (hv : validTile src.w src.h t) :
    ∃ cv2, applyTile identInfer src cv t = some cv2 ∧
      (∀ px py c, c < 4 → inTile src.w src.h t px py →
        cv2 px py c = src.pix (px / 2) (py / 2) c) ∧
      (∀ px py c, ¬ inTile src.w src.h t px py → cv2 px py c = cv px py c) := by
  obtain ⟨j, hj, i, hi, rfl⟩ := hv
  refine ⟨_, applyTile_some identInfer src cv _ (identResult _) rfl, ?_, ?_⟩
  · intro px py c hc hT
    obtain ⟨⟨h1, h2⟩, h3, h4⟩ := hT
    have hbx : 2 * ((j * chunkDim src.w, i * chunkDim src.h).1 -
          padStart (j * chunkDim src.w, i * chunkDim src.h).1) +
          outLenDim src.w (j * chunkDim src.w, i * chunkDim src.h).1 ≤
        2 * inLenDim src.w (j * chunkDim src.w, i * chunkDim src.h).1 := by
      have hf := chunk_fits hj
      have ho := outLenDim_eq hj
      simp only
      omega
    have hby : 2 * ((j * chunkDim src.w, i * chunkDim src.h).2 -
          padStart (j * chunkDim src.w, i * chunkDim src.h).2) +
          outLenDim src.h (j * chunkDim src.w, i * chunkDim src.h).2 ≤
        2 * inLenDim src.h (j * chunkDim src.w, i * chunkDim src.h).2 := by
      have hf := chunk_fits hi
      have ho := outLenDim_eq hi
      simp only
      omega
    by_cases hc3 : c = 3
    · subst hc3
      exact alpha_value src _ h1 h2 h3 h4
    · rw [alpha_ne3 src _ _ _ _ _ hc3]
      exact stitch_ident_value src cv hbx hby h1 h2 h3 h4 hc
  · intro px py c hT
    have hsp : ¬(2 * (j * chunkDim src.w, i * chunkDim src.h).1 ≤ px ∧
        px < 2 * (j * chunkDim src.w, i * chunkDim src.h).1 +
          outLenDim src.w (j * chunkDim src.w, i * chunkDim src.h).1 ∧
        2 * (j * chunkDim src.w, i * chunkDim src.h).2 ≤ py ∧
        py < 2 * (j * chunkDim src.w, i * chunkDim src.h).2 +
          outLenDim src.h (j * chunkDim src.w, i * chunkDim src.h).2) := by
      unfold inTile inReg at hT
      tauto
    rw [alpha_out src _ _ _ _ _ hsp, stitch_out _ _ _ cv hsp]
/-- One tile body under any inference operation that returns a result:
succeeds, writes nearest-neighbor source alpha on channel 3 of its
outputRegion (whatever the returned tensor holds), leaves the rest. -/
lemma applyTile_alpha_good (infer : InferOp) (src : Img)
    (hs : ∀ ch, (infer ch).isSome = true) (cv : Canvas) (t : Tile) :
    ∃ cv2, applyTile infer src cv t = some cv2 ∧
      (∀ px py c, c = 3 → inTile src.w src.h t px py →
        cv2 px py c = src.pix (px / 2) (py / 2) 3) ∧
      (∀ px py c, ¬ inTile src.w src.h t px py → cv2 px py c = cv px py c) := by
  obtain ⟨r, hr⟩ := Option.isSome_iff_exists.1 (hs (extractChunk src (padStart t.1)
    (padStart t.2) (inLenDim src.w t.1) (inLenDim src.h t.2)))
  refine ⟨_, applyTile_some infer src cv t r hr, ?_, ?_⟩
  · intro px py c hc hT
    subst hc
    obtain ⟨⟨h1, h2⟩, h3, h4⟩ := hT
    exact alpha_value src _ h1 h2 h3 h4
  · intro px py c hT
    have hsp : ¬(2 * t.1 ≤ px ∧ px < 2 * t.1 + outLenDim src.w t.1 ∧
        2 * t.2 ≤ py ∧ py < 2 * t.2 + outLenDim src.h t.2) := by
      unfold inTile inReg at hT
      tauto
    rw [alpha_out src _ _ _ _ _ hsp, stitch_out _ _ _ cv hsp]

/-! ### Frame-level consequences -/

/-- One pass with the identity-doubling stub: succeeds and reproduces exact
pixel replication on every covered output pixel, on all four channels. -/
lemma upscaleFrame_ident (src : Img) :
    ∃ out, upscaleFrame identInfer src = some out ∧
      out.w = 2 * src.w ∧ out.h = 2 * src.h ∧
      ∀ px py c, c < 4 → covered src.w src.h px py →
        out.pix px py c = src.pix (px / 2) (py / 2) c := by
  obtain ⟨cv, hfold, hcov, _⟩ := foldTiles_writes identInfer src (fun c => c < 4)
    (fun px py c => src.pix (px / 2) (py / 2) c)
    (fun cv t hv => applyTile_ident_good src cv t hv)
    (tiles src.w src.h) (fun t ht => mem_tiles_iff.1 ht) (fun _ _ _ => 0)
  refine ⟨⟨2 * src.w, 2 * src.h, cv⟩, ?_, rfl, rfl, ?_⟩
  · unfold upscaleFrame
    rw [hfold]
    rfl
  · intro px py c hc hcv
    exact hcov px py c hc hcv

/-- One pass with any inference operation that always returns a result:
succeeds, and on every covered output pixel the alpha channel equals the
source alpha of the half-resolution pixel, whatever the results held. -/
lemma upscaleFrame_alpha (infer : InferOp) (src : Img)
    (hs : ∀ ch, (infer ch).isSome = true) :
    ∃ out, upscaleFrame infer src = some out ∧
      out.w = 2 * src.w ∧ out.h = 2 * src.h ∧
      ∀ px py, covered src.w src.h px py →
        out.pix px py 3 = src.pix (px / 2) (py / 2) 3 := by
  obtain ⟨cv, hfold, hcov, _⟩ := foldTiles_writes infer src (fun c => c = 3)
    (fun px py _ => src.pix (px / 2) (py / 2) 3)
    (fun cv t hv => applyTile_alpha_good infer src hs cv t)
    (tiles src.w src.h) (fun t ht => mem_tiles_iff.1 ht) (fun _ _ _ => 0)
  refine ⟨⟨2 * src.w, 2 * src.h, cv⟩, ?_, rfl, rfl, ?_⟩
  · unfold upscaleFrame
    rw [hfold]
    rfl
  · intro px py hcv
    exact hcov px py 3 rfl hcv

/-- Whenever one pass returns at all, the output dimensions are doubled. -/
lemma upscaleFrame_dims {infer : InferOp} {src out : Img}
    (h : upscaleFrame infer src = some out) :
    out.w = 2 * src.w ∧ out.h = 2 * src.h := by
  unfold upscaleFrame at h
  obtain ⟨cv, _, h2⟩ := Option.map_eq_some'.1 h
  rw [← h2]
  exact ⟨rfl, rfl⟩

/-- Whenever multiUpscale returns at all, dimensions are scaled by 2^n. -/
lemma multiUpscale_dims {infer : InferOp} {img : Img} :
    ∀ {n : Nat} {out : Img}, multiUpscale infer img n = some out →
      out.w = img.w * 2 ^ n ∧ out.h = img.h * 2 ^ n := by
  intro n
  induction n with
  | zero =>
      intro out h
      obtain rfl : img = out := by simpa [multiUpscale] using h
      simp
  | succ n ih =>
      intro out h
      unfold multiUpscale at h
      obtain ⟨prev, hp, hstep⟩ := Option.bind_eq_some.1 h
      obtain ⟨hw, hh⟩ := ih hp
      obtain ⟨hw2, hh2⟩ := upscaleFrame_dims hstep
      constructor
      · rw [hw2, hw, pow_succ]
        ring
      · rw [hh2, hh, pow_succ]
        ring

/-! ### Failure propagation -/

lemma tiles_ne_nil {W H : Nat} (hW : 1 ≤ W) (hH : 1 ≤ H) : tiles W H ≠ [] :=
  List.ne_nil_of_mem (mem_tiles_iff.2 ⟨0, nChunksDim_pos hW, 0, nChunksDim_pos hH, rfl⟩)

/-- With an always-failing inference operation, the very first tile of the
pass fails and the whole frame aborts. -/
lemma upscaleFrame_fail (src : Img) (hW : 1 ≤ src.w) (hH : 1 ≤ src.h) :
    upscaleFrame (fun _ => none) src = none := by
  obtain ⟨t, ts, hts⟩ := List.exists_cons_of_ne_nil (tiles_ne_nil hW hH)
  unfold upscaleFrame
  rw [hts, List.foldlM_cons, applyTile_none _ _ _ _ rfl]
  rfl

lemma multiUpscale_fail (img : Img) (hW : 1 ≤ img.w) (hH : 1 ≤ img.h) (k : Nat) :
    multiUpscale (fun _ => none) img (k + 1) = none := by
  show (multiUpscale (fun _ => none) img k).bind (upscaleFrame (fun _ => none)) = none
  cases h : multiUpscale (fun _ => none) img k with
  | none => rfl
  | some prev =>
      obtain ⟨hw, hh⟩ := multiUpscale_dims h
      have hw1 : 1 ≤ prev.w := by
        rw [hw]
        exact Nat.mul_pos hW (Nat.pos_pow_of_pos k (by norm_num))
      have hh1 : 1 ≤ prev.h := by
        rw [hh]
        exact Nat.mul_pos hH (Nat.pos_pow_of_pos k (by norm_num))
      show upscaleFrame (fun _ => none) prev = none
      exact upscaleFrame_fail prev hw1 hh1

/-! ### The batch loop -/

lemma processBulk_aux (infer : InferOp) (factor : Nat) :
    ∀ (imgs : List Img) (acc : Nat × List (Option Img)),
      imgs.foldl
        (fun acc im =>
          let res := processImage infer im factor
          (acc.1 + (if res.isSome then 1 else 0), acc.2 ++ [res])) acc =
      (acc.1 + (imgs.filter fun im => (processImage infer im factor).isSome).length,
       acc.2 ++ imgs.map fun im => processImage infer im factor) := by
  intro imgs
  induction imgs with
  | nil =>
      intro acc
      show acc = (acc.1 + ([] : List Img).length, acc.2 ++ [])
      simp
  | cons im t ih =>
      intro acc
      rw [List.foldl_cons, ih]
      simp only [List.filter_cons, List.map_cons]
      by_cases h : (processImage infer im factor).isSome
      · simp only [h, if_true, List.length_cons, Prod.mk.injEq]
        refine ⟨by omega, by simp⟩
      · simp only [h, if_false, Bool.false_eq_true, Prod.mk.injEq]
        refine ⟨by omega, by simp⟩

/-! ### The contiguous chunk buffer -/

lemma flatMap_range_length (f : Nat → List Nat) (L : Nat)
    (hL : ∀ i, (f i).length = L) :
    ∀ n, ((List.range n).flatMap f).length = n * L := by
  intro n
  induction n with
  | zero => simp
  | succ n ih =>
      rw [List.range_succ, List.flatMap_append, List.length_append, ih]
      simp [hL, Nat.succ_mul]

lemma flatMap_range_getD (f : Nat → List Nat) (L : Nat)
    (hL : ∀ i, (f i).length = L) :
    ∀ n k r, k < n → r < L →
      ((List.range n).flatMap f).getD (k * L + r) 0 = (f k).getD r 0 := by
  intro n
  induction n with
  | zero =>
      intro k r hk
      omega
  | succ n ih =>
      intro k r hk hr
      rw [List.range_succ, List.flatMap_append]
      rcases Nat.lt_or_ge k n with h | h
      · have hidx : k * L + r < ((List.range n).flatMap f).length := by
          rw [flatMap_range_length f L hL n]
          have h5 : (k + 1) * L ≤ n * L := Nat.mul_le_mul_right _ h
          have h6 : (k + 1) * L = k * L + L := by ring
          omega
        rw [List.getD_append _ _ _ _ hidx]
        exact ih k r h hr
      · have hk2 : k = n := by omega
        subst hk2
        have hlen : ((List.range k).flatMap f).length = k * L :=
          flatMap_range_length f L hL k
        have hge : ((List.range k).flatMap f).length ≤ k * L + r := by omega
        rw [List.getD_append_right _ _ _ _ hge, hlen]
        simp only [List.flatMap_cons, List.flatMap_nil, List.append_nil]
        congr 1
        omega

/-- The flat subArr copy agrees with the source on the whole region: byte
(u, v, c) of the chunk is the source byte at (xs + u, ys + v, c). -/
lemma chunkData_getD (src : Img) (xs ys iw ih : Nat) {u v c : Nat}
    (hu : u < iw) (hv : v < ih) (hc : c < 4) :
    (chunkData src xs ys iw ih).getD (u * (ih * 4) + v * 4 + c) 0 =
      src.pix (xs + u) (ys + v) c := by
  unfold chunkData
  have hinner : ∀ a : Nat,
      ((List.range ih).flatMap fun b => (List.range 4).map
        fun d => src.pix (xs + a) (ys + b) d).length = ih * 4 := by
    intro a
    exact flatMap_range_length _ 4 (fun i => by simp) ih
  have hvc : v * 4 + c < ih * 4 := by omega
  rw [Nat.add_assoc]
  rw [flatMap_range_getD _ (ih * 4) hinner iw u (v * 4 + c) hu hvc]
  rw [flatMap_range_getD _ 4 (fun i => by simp) ih v c hv hc]
  have hc4 : c = 0 ∨ c = 1 ∨ c = 2 ∨ c = 3 := by omega
  rcases hc4 with rfl | rfl | rfl | rfl <;> rfl

/-! ### Congruence helpers for the chunk buffer -/

lemma flatMap_range_congr (f g : Nat → List Nat) :
    ∀ n, (∀ i, i < n → f i = g i) →
      (List.range n).flatMap f = (List.range n).flatMap g := by
  intro n
  induction n with
  | zero => intro _; rfl
  | succ n ih =>
      intro h
      rw [List.range_succ, List.flatMap_append, List.flatMap_append]
      rw [ih (fun i hi => h i (by omega))]
      simp only [List.flatMap_cons, List.flatMap_nil, List.append_nil]
      rw [h n (by omega)]

lemma map_range_congr (f g : Nat → Nat) :
    ∀ n, (∀ i, i < n → f i = g i) →
      (List.range n).map f = (List.range n).map g := by
  intro n
  induction n with
  | zero => intro _; rfl
  | succ n ih =>
      intro h
      rw [List.range_succ, List.map_append, List.map_append]
      rw [ih (fun i hi => h i (by omega))]
      simp only [List.map_cons, List.map_nil]
      rw [h n (by omega)]

/-! ### Concrete instances used by the individual claims -/

def zeroCanvas : Canvas := fun _ _ _ => 0

def img1x1 : Img := ⟨1, 1, fun _ _ _ => 7⟩

def img1025 : Img := ⟨1025, 1, fun _ _ _ => 255⟩

def imgC4 : Img := ⟨1, 1, fun _ _ _ => 5⟩

/-- An adversarial inference stub: for any chunk it returns a tensor of dims
[1, 1, 4], never the required doubled shape. -/
def badShapeInfer : InferOp := fun _ => some ⟨1, 1, 4, fun _ => 7⟩

/-- A compliant tensor for a 1x1 chunk whose alpha samples are 42. -/
def rAlpha42 : InferResult := ⟨2, 2, 4, fun _ => 42⟩

def imgA : Img := ⟨1, 1, fun _ _ _ => 1⟩

def imgB : Img := ⟨1, 1, fun _ _ _ => 9⟩

/-- An inference stub that fails exactly on chunks whose first byte is 9
(i.e. on every chunk of imgB) and identity-doubles anything else. -/
def mixedInfer : InferOp := fun ch =>
  if ch.pix 0 0 0 = 9 then none else identInfer ch
/-! ### Claim C1 -/

/-- C1: the claim states that for every W, H >= 1 the union of the pass's
outputRegions exactly equals [0, 2W) x [0, 2H), the last tile reaching the
edge through min(dim, pos + chunkSize).  The code violates this: for
W = 1025, H = 1 the grid is nChunksW = 2, chunkW = 512, the last tile ends at
min(1025, 512 + 512) = 1024 < 1025, and output column 2048 < 2*1025 is
covered by no tile, so the pass leaves an uncovered two-column strip. -/
theorem c1_coverage_gap_at_1025 :
    ¬ covered 1025 1 2048 0 ∧ 2048 < 2 * 1025 ∧ (0 : Nat) < 2 * 1 := by
  decide

/-! ### Claim C2 -/

/-- C2 as stated is false: with the compliant identity-doubling stub (so
inference succeeds on every tile), the 1025 x 1 all-255 image yields an
output whose alpha at the in-range pixel (2048, 0) is the canvas zero fill,
not the source alpha 255 at (1024, 0) - the tile grid never writes it. -/
theorem c2_alpha_counterexample :
    ((upscaleFrame identInfer img1025).map fun o => o.pix 2048 0 3) = some 0 ∧
    img1025.pix 1024 0 3 = 255 ∧ 2048 < 2 * img1025.w ∧ (0 : Nat) < 2 * img1025.h := by
  decide

/-- C2 (amended): provided the inference operation returns some tensor for
every submitted chunk - of any shape and content - one pass succeeds and
every output pixel lying in some tile's outputRegion (that is, with
px < 2 * nChunksW * chunkW and py < 2 * nChunksH * chunkH) gets alpha equal
to the source alpha at (px / 2, py / 2), independent of the returned RGB. -/
theorem c2_alpha_law (infer : InferOp) (src : Img) (hW : 1 ≤ src.w) (hH : 1 ≤ src.h)
    (hs : ∀ ch, (infer ch).isSome = true) :
    ∃ out, upscaleFrame infer src = some out ∧
      ∀ px py, px < 2 * (nChunksDim src.w * chunkDim src.w) →
        py < 2 * (nChunksDim src.h * chunkDim src.h) →
        out.pix px py 3 = src.pix (px / 2) (py / 2) 3 := by
  obtain ⟨out, h1, _, _, h4⟩ := upscaleFrame_alpha infer src hs
  exact ⟨out, h1, fun px py hx hy => h4 px py (covered_of_lt hW hH hx hy)⟩

/-- Witness for c2_alpha_law at the 1x1 image and the identity stub. -/
theorem c2_alpha_law_witness :
    ∃ out, upscaleFrame identInfer img1x1 = some out ∧
      ∀ px py, px < 2 * (nChunksDim img1x1.w * chunkDim img1x1.w) →
        py < 2 * (nChunksDim img1x1.h * chunkDim img1x1.h) →
        out.pix px py 3 = img1x1.pix (px / 2) (py / 2) 3 :=
  c2_alpha_law identInfer img1x1 (by decide) (by decide) (fun ch => rfl)

/-! ### Claim C3 -/

/-- C3: whenever multiUpscale returns a buffer at all, its dimensions are
(W * 2^N, H * 2^N), and with upscaleFactor 0 it returns the input image
unchanged (the loop body never runs). -/
theorem c3_multiUpscale_dims (infer : InferOp) (img : Img) (n : Nat) :
    ((multiUpscale infer img n).map fun o => (o.w, o.h)) =
      ((multiUpscale infer img n).map fun _ => (img.w * 2 ^ n, img.h * 2 ^ n)) ∧
    multiUpscale infer img 0 = some img := by
  constructor
  · cases h : multiUpscale infer img n with
    | none => rfl
    | some out =>
        obtain ⟨hw, hh⟩ := multiUpscale_dims h
        simp [hw, hh]
  · rfl

/-! ### Claim C4 -/

/-- C4: the claim states that the core validates the returned tensor's shape
and aborts on mismatch, never passing a malformed chunk to stitching.  The
code has no such check: on a 1x1 image whose only chunk must come back as
[2, 2, 4], a stub returning dims [1, 1, 4] with every byte 7 is stitched
anyway - the pass completes (isSome), output pixel (0, 0) receives byte 7
read from the malformed tensor, and pixel (1, 0) receives 0 from an
out-of-range read, instead of the conversion aborting. -/
theorem c4_no_shape_validation :
    (upscaleFrame badShapeInfer imgC4).isSome = true ∧
    ((upscaleFrame badShapeInfer imgC4).map fun o => (o.pix 0 0 0, o.pix 1 0 0)) =
      some (7, 0) := by
  decide
/-! ### Claim C5 -/

/-- C5: the batch loop is per-image isolated: its outcome list is exactly the
per-image outcomes in order (so one image's failure cannot affect another),
successCount counts exactly the successful images, and with an inference
operation that always fails, any image with at least one pass fails with no
output file (in the code the undefined result makes line 98 of utils.js
throw, the per-file try/catch of processImage catches it, returns false, and
sharp's toFile is never reached). -/
theorem c5_batch_isolation (infer : InferOp) (factor : Nat) (imgs : List Img) :
    (processBulkImages infer imgs factor).2 =
      (imgs.map fun im => processImage infer im factor) ∧
    (processBulkImages infer imgs factor).1 =
      (imgs.filter fun im => (processImage infer im factor).isSome).length ∧
    (∀ im k, 1 ≤ im.w → 1 ≤ im.h →
      processImage (fun _ => none) im (k + 1) = none) := by
  have h := processBulk_aux infer factor imgs (0, [])
  unfold processBulkImages
  refine ⟨?_, ?_, ?_⟩
  · rw [h]
    simp
  · rw [h]
    simp
  · intro im k hW hH
    exact multiUpscale_fail im hW hH k

/-- Witness for c5_batch_isolation: a two-image batch in which inference
fails on every chunk of the second image still processes the first and
reports one success. -/
theorem c5_batch_isolation_witness :
    (processBulkImages mixedInfer [imgA, imgB] 1).1 = 1 ∧
    (processBulkImages mixedInfer [imgA, imgB] 1).2 =
      ([imgA, imgB].map fun im => processImage mixedInfer im 1) ∧
    processImage (fun _ => none) imgA (0 + 1) = none := by
  have h := c5_batch_isolation mixedInfer 1 [imgA, imgB]
  exact ⟨h.2.1.trans (by decide), h.1, h.2.2 imgA 0 (by decide) (by decide)⟩

/-! ### Claim C6 -/

/-- C6 as stated is false for the same reason as C1: with the
identity-doubling stub on the 1025 x 1 all-255 image, the in-range output
pixel (2048, 0) keeps the canvas zero fill on channel 0 instead of the
pixel-replicated source value 255. -/
theorem c6_rgb_counterexample :
    ((upscaleFrame identInfer img1025).map fun o => o.pix 2048 0 0) = some 0 ∧
    img1025.pix 1024 0 0 = 255 ∧ 2048 < 2 * img1025.w ∧ (0 : Nat) < 2 * img1025.h := by
  decide

/-- C6 (amended): with the identity-doubling stub, one pass succeeds and the
R, G, B channels of every output pixel lying in some tile's outputRegion
(px < 2 * nChunksW * chunkW, py < 2 * nChunksH * chunkH) equal the source
values at (px / 2, py / 2) - in particular all pixels of the first tile, of
tile interiors and of the clipped remainder-sized last tile. -/
theorem c6_rgb_fidelity (src : Img) (hW : 1 ≤ src.w) (hH : 1 ≤ src.h) :
    ∃ out, upscaleFrame identInfer src = some out ∧
      ∀ px py c, px < 2 * (nChunksDim src.w * chunkDim src.w) →
        py < 2 * (nChunksDim src.h * chunkDim src.h) → c < 3 →
        out.pix px py c = src.pix (px / 2) (py / 2) c := by
  obtain ⟨out, h1, _, _, h4⟩ := upscaleFrame_ident src
  exact ⟨out, h1, fun px py c hx hy hc =>
    h4 px py c (by omega) (covered_of_lt hW hH hx hy)⟩

/-- Witness for c6_rgb_fidelity at the 1x1 image. -/
theorem c6_rgb_fidelity_witness :
    ∃ out, upscaleFrame identInfer img1x1 = some out ∧
      ∀ px py c, px < 2 * (nChunksDim img1x1.w * chunkDim img1x1.w) →
        py < 2 * (nChunksDim img1x1.h * chunkDim img1x1.h) → c < 3 →
        out.pix px py c = img1x1.pix (px / 2) (py / 2) c :=
  c6_rgb_fidelity img1x1 (by decide) (by decide)
/-! ### Claim C7 -/

/-- C7 as stated is false in one respect: the stitch of line 103 does not
write "only the R, G, B channels".  ndarray's pick keeps any axis indexed by
a non-number, so pick(null, null, [0,1,2]) keeps the whole channel axis and
ops.assign also copies channel 3: stitching a compliant all-42 tensor into a
zero canvas puts the tensor's alpha 42 - not the canvas value 0 - at
(0, 0, 3). -/
theorem c7_stitch_writes_alpha :
    stitchStep 0 0 0 0 2 2 rAlpha42 zeroCanvas 0 0 3 = rAlpha42.get 0 0 3 ∧
    rAlpha42.get 0 0 3 = 42 ∧ zeroCanvas 0 0 3 = 0 := by
  decide

/-- C7 (amended): per tile, the stitch crops the returned tensor starting at
(2*dx, 2*dy) with the outputRegion's extent and writes the crop at the
outputRegion origin on all four channels (the [0,1,2] channel pick being
ineffective); the alpha pass then rewrites channel 3 of the whole
outputRegion from the source, so when the tile's processing completes the
canvas alpha is nearest-neighbor source alpha, not inference output; nothing
outside the outputRegion is written. -/
theorem c7_stitch_and_alpha (src : Img) (infer : InferOp) (cv : Canvas) (t : Tile)
    (r : InferResult)
    (hr : infer (extractChunk src (padStart t.1) (padStart t.2)
        (inLenDim src.w t.1) (inLenDim src.h t.2)) = some r) :
    ∃ cv2, applyTile infer src cv t = some cv2 ∧
      (∀ px py c, 2 * t.1 ≤ px → px < 2 * t.1 + outLenDim src.w t.1 →
        2 * t.2 ≤ py → py < 2 * t.2 + outLenDim src.h t.2 → c < 3 →
        cv2 px py c = r.get (2 * (t.1 - padStart t.1) + (px - 2 * t.1))
          (2 * (t.2 - padStart t.2) + (py - 2 * t.2)) c) ∧
      (∀ px py, 2 * t.1 ≤ px → px < 2 * t.1 + outLenDim src.w t.1 →
        2 * t.2 ≤ py → py < 2 * t.2 + outLenDim src.h t.2 →
        cv2 px py 3 = src.pix (px / 2) (py / 2) 3) ∧
      (∀ px py c, ¬(2 * t.1 ≤ px ∧ px < 2 * t.1 + outLenDim src.w t.1 ∧
          2 * t.2 ≤ py ∧ py < 2 * t.2 + outLenDim src.h t.2) →
        cv2 px py c = cv px py c) := by
  refine ⟨_, applyTile_some infer src cv t r hr, ?_, ?_, ?_⟩
  · intro px py c h1 h2 h3 h4 hc
    rw [alpha_ne3 src _ _ _ _ _ (by omega)]
    exact stitch_in _ _ r cv h1 h2 h3 h4 (by omega)
  · intro px py h1 h2 h3 h4
    exact alpha_value src _ h1 h2 h3 h4
  · intro px py c hsp
    rw [alpha_out src _ _ _ _ _ hsp, stitch_out _ _ r cv hsp]

/-- Witness for c7_stitch_and_alpha at the 1x1 image, identity stub, zero
canvas and the single tile (0, 0). -/
theorem c7_stitch_and_alpha_witness :
    ∃ cv2, applyTile identInfer img1x1 zeroCanvas (0, 0) = some cv2 ∧
      (∀ px py c, 2 * 0 ≤ px → px < 2 * 0 + outLenDim img1x1.w 0 →
        2 * 0 ≤ py → py < 2 * 0 + outLenDim img1x1.h 0 → c < 3 →
        cv2 px py c = (identResult (extractChunk img1x1 (padStart 0) (padStart 0)
            (inLenDim img1x1.w 0) (inLenDim img1x1.h 0))).get
          (2 * (0 - padStart 0) + (px - 2 * 0)) (2 * (0 - padStart 0) + (py - 2 * 0)) c) ∧
      (∀ px py, 2 * 0 ≤ px → px < 2 * 0 + outLenDim img1x1.w 0 →
        2 * 0 ≤ py → py < 2 * 0 + outLenDim img1x1.h 0 →
        cv2 px py 3 = img1x1.pix (px / 2) (py / 2) 3) ∧
      (∀ px py c, ¬(2 * 0 ≤ px ∧ px < 2 * 0 + outLenDim img1x1.w 0 ∧
          2 * 0 ≤ py ∧ py < 2 * 0 + outLenDim img1x1.h 0) →
        cv2 px py c = zeroCanvas px py c) :=
  c7_stitch_and_alpha img1x1 identInfer zeroCanvas (0, 0)
    (identResult (extractChunk img1x1 (padStart 0) (padStart 0)
      (inLenDim img1x1.w 0) (inLenDim img1x1.h 0))) rfl
/-! ### Claim C8 -/

/-- C8: every tile's outputRegion extents are exactly
2 * (min(dim, pos + chunk) - pos) per axis (that is outLenDim's definition),
hence even, and they are strictly positive for every tile of the grid. -/
theorem c8_outputRegion_even (W H : Nat) (t : Tile) (hW : 1 ≤ W) (hH : 1 ≤ H)
    (ht : t ∈ tiles W H) :
    outLenDim W t.1 = 2 * (min W (t.1 + chunkDim W) - t.1) ∧
    outLenDim W t.1 % 2 = 0 ∧ 0 < outLenDim W t.1 ∧
    outLenDim H t.2 = 2 * (min H (t.2 + chunkDim H) - t.2) ∧
    outLenDim H t.2 % 2 = 0 ∧ 0 < outLenDim H t.2 := by
  obtain ⟨j, hj, i, hi, rfl⟩ := mem_tiles_iff.1 ht
  dsimp only
  rw [outLenDim_eq hj, outLenDim_eq hi]
  have hcx := chunkDim_pos hW
  have hcy := chunkDim_pos hH
  have hx := outLenDim_eq hj
  have hy := outLenDim_eq hi
  refine ⟨by rw [← hx]; rfl, by omega, by omega, by rw [← hy]; rfl, by omega, by omega⟩

/-- Witness for c8_outputRegion_even at the spec's 2000 x 1500 example and
its last tile (1000, 750). -/
theorem c8_outputRegion_even_witness :
    outLenDim 2000 1000 = 2 * (min 2000 (1000 + chunkDim 2000) - 1000) ∧
    outLenDim 2000 1000 % 2 = 0 ∧ 0 < outLenDim 2000 1000 ∧
    outLenDim 1500 750 = 2 * (min 1500 (750 + chunkDim 1500) - 750) ∧
    outLenDim 1500 750 % 2 = 0 ∧ 0 < outLenDim 1500 750 :=
  c8_outputRegion_even 2000 1500 (1000, 750) (by decide) (by decide) (by decide)

/-! ### Claim C9 -/

/-- C9: chunk extraction is a pure function of the source region: the flat
contiguous copy holds exactly the source bytes of the inputRegion (so two
extractions from an unmodified source are byte-identical), the chunk viewed
as an image agrees with the source pointwise, and the bytes depend only on
the region's content. -/
theorem c9_extraction_pure (src : Img) (xs ys iw ih : Nat) :
    (∀ u v c, u < iw → v < ih → c < 4 →
      (chunkData src xs ys iw ih).getD (u * (ih * 4) + v * 4 + c) 0 =
        src.pix (xs + u) (ys + v) c) ∧
    (∀ u v c, (extractChunk src xs ys iw ih).pix u v c = src.pix (xs + u) (ys + v) c) ∧
    (∀ src2 : Img, (∀ u v c, u < iw → v < ih → c < 4 →
        src.pix (xs + u) (ys + v) c = src2.pix (xs + u) (ys + v) c) →
      chunkData src xs ys iw ih = chunkData src2 xs ys iw ih) := by
  refine ⟨?_, ?_, ?_⟩
  · intro u v c hu hv hc
    exact chunkData_getD src xs ys iw ih hu hv hc
  · intro u v c
    rfl
  · intro src2 hagree
    unfold chunkData
    apply flatMap_range_congr _ _ iw
    intro u hu
    apply flatMap_range_congr _ _ ih
    intro v hv
    apply map_range_congr _ _ 4
    intro c hc
    exact hagree u v c hu hv hc

/-- Witness for c9_extraction_pure on a concrete source and region. -/
theorem c9_extraction_pure_witness :
    (chunkData imgA 0 0 1 1).getD (0 * (1 * 4) + 0 * 4 + 0) 0 =
      imgA.pix (0 + 0) (0 + 0) 0 ∧
    (extractChunk imgA 0 0 1 1).pix 0 0 0 = imgA.pix (0 + 0) (0 + 0) 0 ∧
    chunkData imgA 0 0 1 1 = chunkData imgA 0 0 1 1 :=
  ⟨(c9_extraction_pure imgA 0 0 1 1).1 0 0 0 (by decide) (by decide) (by decide),
   (c9_extraction_pure imgA 0 0 1 1).2.1 0 0 0,
   (c9_extraction_pure imgA 0 0 1 1).2.2 imgA (fun u v c hu hv hc => rfl)⟩

/-! ### Claim C10 -/

/-- C10: for every tile of the grid (W, H >= 1) all buffer accesses stay in
bounds: the padded input region fits in the source, the crop of a compliant
doubled tensor fits in that tensor, the alpha loop's input view fits in the
padded input slice, its read indices stay below the view's extents, and the
output slice fits in the (2W, 2H, 4) canvas. -/
theorem c10_bounds (W H : Nat) (t : Tile) (hW : 1 ≤ W) (hH : 1 ≤ H)
    (ht : t ∈ tiles W H) :
    padStart t.1 + inLenDim W t.1 ≤ W ∧
    padStart t.2 + inLenDim H t.2 ≤ H ∧
    2 * (t.1 - padStart t.1) + outLenDim W t.1 ≤ 2 * inLenDim W t.1 ∧
    2 * (t.2 - padStart t.2) + outLenDim H t.2 ≤ 2 * inLenDim H t.2 ∧
    (t.1 - padStart t.1) + outLenDim W t.1 / 2 ≤ inLenDim W t.1 ∧
    (t.2 - padStart t.2) + outLenDim H t.2 / 2 ≤ inLenDim H t.2 ∧
    (∀ lx, lx < outLenDim W t.1 → lx / 2 < outLenDim W t.1 / 2) ∧
    (∀ ly, ly < outLenDim H t.2 → ly / 2 < outLenDim H t.2 / 2) ∧
    2 * t.1 + outLenDim W t.1 ≤ 2 * W ∧
    2 * t.2 + outLenDim H t.2 ≤ 2 * H := by
  obtain ⟨j, hj, i, hi, rfl⟩ := mem_tiles_iff.1 ht
  dsimp only
  rw [outLenDim_eq hj, outLenDim_eq hi]
  have h1 := inLen_le hj
  have h2 := inLen_le hi
  have h3 := chunk_fits hj
  have h4 := chunk_fits hi
  have h7 := tile_end_le hj
  have h8 := tile_end_le hi
  have h9 := padStart_le (j * chunkDim W)
  have h10 := padStart_le (i * chunkDim H)
  refine ⟨by omega, by omega, by omega, by omega, by omega, by omega,
    fun lx hlx => by omega, fun ly hly => by omega, by omega, by omega⟩

/-- Witness for c10_bounds at the 1 x 1 image's single tile. -/
theorem c10_bounds_witness :
    padStart 0 + inLenDim 1 0 ≤ 1 ∧
    padStart 0 + inLenDim 1 0 ≤ 1 ∧
    2 * (0 - padStart 0) + outLenDim 1 0 ≤ 2 * inLenDim 1 0 ∧
    2 * (0 - padStart 0) + outLenDim 1 0 ≤ 2 * inLenDim 1 0 ∧
    (0 - padStart 0) + outLenDim 1 0 / 2 ≤ inLenDim 1 0 ∧
    (0 - padStart 0) + outLenDim 1 0 / 2 ≤ inLenDim 1 0 ∧
    (∀ lx, lx < outLenDim 1 0 → lx / 2 < outLenDim 1 0 / 2) ∧
    (∀ ly, ly < outLenDim 1 0 → ly / 2 < outLenDim 1 0 / 2) ∧
    2 * 0 + outLenDim 1 0 ≤ 2 * 1 ∧
    2 * 0 + outLenDim 1 0 ≤ 2 * 1 :=
  c10_bounds 1 1 (0, 0) (by decide) (by decide) (by decide)

end Face2X
